import Mathlib

/-! Verification of the returns-calculator core (src/main.py).

The rate tensor is modelled as nested lists of rationals (exact arithmetic in
place of IEEE floats).  numpy indexing is an Option-valued lookup in which an
out-of-bounds access (a numpy IndexError) is `none`, and the process
environment read through os.getenv is an explicit `Env` record threaded into
the function that reads it.  The recursive optimizer `max_return` carries an
explicit fuel argument modelling the call stack; fuel exhaustion yields
`none`, and the fuel-stability theorem (claim C10) shows that any fuel of at
least `num_months - month` is enough, so the fuel is invisible on the
domain the claims quantify over.
-/

namespace ReturnsCalc

/-- A rate tensor: a list of months, each a list of source-currency rows,
each a list of per-destination rates.  Entries model the floats of the numpy
array exactly, as rationals. -/
abbrev Tensor := List (List (List ℚ))

/-- The process environment variables read by src/main.py through os.getenv:
TO_TRADE_CURRENCY, FROM_CURRENCY, START_MONTH, DATA_FOLDER, LOGGER_FILE. -/
structure Env where
  toTradeCurrency : ℕ
  fromCurrency : ℕ
  startMonth : ℕ
  dataFolder : String
  loggerFile : String

/-- The environment in which no variable is set, so every os.getenv call in
src/main.py returns its hard-coded default. -/
def defaultEnv : Env := ⟨0, 0, 0, "./data/", "app.log"⟩

/-- numpy indexing monthly_returns_arr[month, from_currency, to_trade_currency]
(src/main.py lines 104 and 111): `none` models the IndexError raised on an
out-of-bounds access (indices are naturals, so numpy's negative-index
wrap-around cannot occur). -/
def rate? (t : Tensor) (month c d : ℕ) : Option ℚ :=
  (t.get? month).bind fun mo => (mo.get? c).bind fun row => row.get? d

/-- The rate at an index, defaulting to 0 out of bounds; used on the
specification side (it agrees with `rate?` on every in-bounds access). -/
def rateD (t : Tensor) (month c d : ℕ) : ℚ := (rate? t month c d).getD 0

/-- Shallow embedding of max_return (src/main.py lines 75-128).  The Python
guard `month == num_months - 1` is written `month + 1 = num_months`, which is
equivalent over the embedded domain (month is a natural, and for
num_months = 0 both sides are false).  In the terminal branch the code reads
the TO_TRADE_CURRENCY environment variable; everywhere the accumulator starts
at 0 and is updated with `max`, exactly as `max_total_returns` in the source.
The first argument is fuel for the unguarded recursion; each recursive call
consumes one unit. -/
def max_return : ℕ → Env → Tensor → ℕ → ℕ → ℚ → ℕ → ℕ → Option ℚ
  | 0, _, _, _, _, _, _, _ => none
  | fuel + 1, env, t, month, from_currency, portfolio_value, num_months,
      num_currencies =>
    if month + 1 = num_months then
      (rate? t month from_currency env.toTradeCurrency).map fun trade_return =>
        portfolio_value * trade_return
    else
      (List.range num_currencies).foldl
        (fun acc? to_c =>
          acc?.bind fun acc =>
            (rate? t month from_currency to_c).bind fun trade_return =>
              (max_return fuel env t (month + 1) to_c
                  (portfolio_value * trade_return) num_months
                  num_currencies).map
                fun next_return => max acc next_return)
        (some 0)

/-- Every entry of the tensor is non-negative (spec §3: rates are
non-negative reals). -/
abbrev NonnegTensor (t : Tensor) : Prop :=
  ∀ mo ∈ t, ∀ row ∈ mo, ∀ x ∈ row, 0 ≤ x

/-- The tensor has shape (nm, nc, nc). -/
abbrev ShapeOK (t : Tensor) (nm nc : ℕ) : Prop :=
  t.length = nm ∧ ∀ mo ∈ t, mo.length = nc ∧ ∀ row ∈ mo, row.length = nc

/-- Maximum of a list of rationals, 0 on the empty list; for a nonempty list
this is the genuine maximum of its elements. -/
def listMax : List ℚ → ℚ
  | [] => 0
  | x :: xs => xs.foldl max x

/-- Modelled from the spec (§4.1, algorithmic note, strategy 2): the
bottom-up dynamic-programming table, indexed by the number k of periods
remaining after the current one, so that `dpAux tgt t nc k p c` is the spec's
V[p][c] when k = num_periods - 1 - p.  For k = 0 (the last period) it is
rate[p][c][tgt]; otherwise the maximum over destinations d of
rate[p][c][d] * V[p+1][d]. -/
def dpAux (tgt : ℕ) (t : Tensor) (nc : ℕ) : ℕ → ℕ → ℕ → ℚ
  | 0, p, c => rateD t p c tgt
  | k + 1, p, c =>
    listMax ((List.range nc).map fun d => rateD t p c d * dpAux tgt t nc k (p + 1) d)

/-- Modelled from the spec (§4.1): V[p][c] of the bottom-up DP, for a horizon
of nm periods. -/
def dpValue (tgt : ℕ) (t : Tensor) (nm nc p c : ℕ) : ℚ :=
  dpAux tgt t nc (nm - 1 - p) p c

/-- Modelled from the spec (§4.1 postcondition): the product of per-period
rate factors along a path that starts in currency c at month m, visits the
destination currencies listed in ds (one free choice per non-terminal
period), and finally converts into tgt at the last period. -/
def pathFactor (t : Tensor) (tgt : ℕ) : ℕ → ℕ → List ℕ → ℚ
  | m, c, [] => rateD t m c tgt
  | m, c, d :: ds => rateD t m c d * pathFactor t tgt (m + 1) d ds

/-! Basic lemmas about list folds with `max`. -/

lemma le_foldl_max_self : ∀ (xs : List ℚ) (a : ℚ), a ≤ xs.foldl max a
  | [], _ => le_refl _
  | x :: xs, a => le_trans (le_max_left a x) (le_foldl_max_self xs (max a x))

lemma le_foldl_max_of_mem : ∀ (xs : List ℚ) (a x : ℚ), x ∈ xs → x ≤ xs.foldl max a
  | [], _, _, hx => absurd hx (List.not_mem_nil _)
  | y :: ys, a, x, hx => by
    rcases List.mem_cons.mp hx with h | h
    · subst h
      exact le_trans (le_max_right a x) (le_foldl_max_self ys (max a x))
    · exact le_foldl_max_of_mem ys (max a y) x h

lemma foldl_max_eq_or_mem : ∀ (xs : List ℚ) (a : ℚ),
    xs.foldl max a = a ∨ xs.foldl max a ∈ xs
  | [], _ => Or.inl rfl
  | x :: xs, a => by
    rcases foldl_max_eq_or_mem xs (max a x) with h | h
    · rcases max_choice a x with h2 | h2
      · exact Or.inl (by rw [List.foldl_cons, h, h2])
      · exact Or.inr (by rw [List.foldl_cons, h, h2]; exact List.mem_cons_self x xs)
    · exact Or.inr (List.mem_cons_of_mem x h)

lemma foldl_max_mul (v : ℚ) (hv : 0 ≤ v) :
    ∀ (xs : List ℚ) (a : ℚ),
      (xs.map fun x => v * x).foldl max (v * a) = v * xs.foldl max a
  | [], _ => rfl
  | x :: xs, a => by
    rw [List.map_cons, List.foldl_cons, List.foldl_cons,
      ← mul_max_of_nonneg a x hv]
    exact foldl_max_mul v hv xs (max a x)

lemma listMax_mem : ∀ (xs : List ℚ), xs ≠ [] → listMax xs ∈ xs
  | [], h => absurd rfl h
  | x :: xs, _ => by
    rcases foldl_max_eq_or_mem xs x with h | h
    · rw [listMax, h]; exact List.mem_cons_self x xs
    · rw [listMax]; exact List.mem_cons_of_mem x h

lemma le_listMax : ∀ (xs : List ℚ) (x : ℚ), x ∈ xs → x ≤ listMax xs
  | [], x, hx => absurd hx (List.not_mem_nil x)
  | y :: ys, x, hx => by
    rcases List.mem_cons.mp hx with h | h
    · subst h; exact le_foldl_max_self ys x
    · exact le_foldl_max_of_mem ys y x h

lemma listMax_nonneg : ∀ (xs : List ℚ), (∀ x ∈ xs, 0 ≤ x) → 0 ≤ listMax xs
  | [], _ => le_refl 0
  | x :: xs, hx =>
    le_trans (hx x (List.mem_cons_self x xs)) (le_foldl_max_self xs x)

lemma foldl_max_zero_eq_listMax :
    ∀ (xs : List ℚ), xs ≠ [] → (∀ x ∈ xs, 0 ≤ x) → xs.foldl max 0 = listMax xs
  | [], h, _ => absurd rfl h
  | x :: xs, _, hx => by
    rw [List.foldl_cons, max_eq_right (hx x (List.mem_cons_self x xs))]
    rfl

/-! Unfolding lemmas for `max_return`, one per branch of the source. -/

lemma max_return_succ_last (fuel : ℕ) (env : Env) (t : Tensor) (m c : ℕ)
    (v : ℚ) (nm nc : ℕ) (hlast : m + 1 = nm) :
    max_return (fuel + 1) env t m c v nm nc =
      (rate? t m c env.toTradeCurrency).map fun trade_return =>
        v * trade_return := by
  simp only [max_return]
  rw [if_pos hlast]

lemma max_return_succ_loop (fuel : ℕ) (env : Env) (t : Tensor) (m c : ℕ)
    (v : ℚ) (nm nc : ℕ) (hne : m + 1 ≠ nm) :
    max_return (fuel + 1) env t m c v nm nc =
      (List.range nc).foldl
        (fun acc? to_c =>
          acc?.bind fun acc =>
            (rate? t m c to_c).bind fun trade_return =>
              (max_return fuel env t (m + 1) to_c (v * trade_return) nm
                  nc).map
                fun next_return => max acc next_return)
        (some 0) := by
  simp only [max_return]
  rw [if_neg hne]

/-! Generic lemmas about the Option-valued loop accumulation. -/

lemma foldl_step_some (step : Option ℚ → ℕ → Option ℚ) (h : ℕ → ℚ) :
    ∀ l : List ℕ,
      (∀ d ∈ l, ∀ a : ℚ, step (some a) d = some (max a (h d))) →
      ∀ a0 : ℚ,
        l.foldl step (some a0) = some (l.foldl (fun a d => max a (h d)) a0)
  | [], _, _ => rfl
  | d :: ds, hstep, a0 => by
    rw [List.foldl_cons, List.foldl_cons,
      hstep d (List.mem_cons_self d ds) a0]
    exact foldl_step_some step h ds
      (fun d2 hd2 => hstep d2 (List.mem_cons_of_mem d hd2)) (max a0 (h d))

lemma foldl_step_total (step : Option ℚ → ℕ → Option ℚ) :
    ∀ l : List ℕ,
      (∀ d ∈ l, ∀ a : ℚ, ∃ b : ℚ, step (some a) d = some b ∧ a ≤ b) →
      ∀ a0 : ℚ, ∃ r : ℚ, l.foldl step (some a0) = some r ∧ a0 ≤ r
  | [], _, a0 => ⟨a0, rfl, le_refl a0⟩
  | d :: ds, hstep, a0 => by
    obtain ⟨b, hb, hab⟩ := hstep d (List.mem_cons_self d ds) a0
    obtain ⟨r, hr, hbr⟩ := foldl_step_total step ds
      (fun d2 hd2 => hstep d2 (List.mem_cons_of_mem d hd2)) b
    exact ⟨r, by rw [List.foldl_cons, hb]; exact hr, le_trans hab hbr⟩

lemma foldl_step_congr (step1 step2 : Option ℚ → ℕ → Option ℚ) :
    ∀ (l : List ℕ) (x : Option ℚ),
      (∀ d ∈ l, ∀ y : Option ℚ, step1 y d = step2 y d) →
      l.foldl step1 x = l.foldl step2 x
  | [], _, _ => rfl
  | d :: ds, x, h => by
    rw [List.foldl_cons, List.foldl_cons, h d (List.mem_cons_self d ds) x]
    exact foldl_step_congr step1 step2 ds _
      (fun d2 hd2 => h d2 (List.mem_cons_of_mem d hd2))

lemma foldl_step_map (step1 step2 : Option ℚ → ℕ → Option ℚ) (f : ℚ → ℚ) :
    ∀ l : List ℕ,
      (∀ d ∈ l, ∀ y : Option ℚ, step1 (y.map f) d = (step2 y d).map f) →
      ∀ y : Option ℚ, l.foldl step1 (y.map f) = (l.foldl step2 y).map f
  | [], _, _ => rfl
  | d :: ds, h, y => by
    rw [List.foldl_cons, List.foldl_cons, h d (List.mem_cons_self d ds) y]
    exact foldl_step_map step1 step2 f ds
      (fun d2 hd2 => h d2 (List.mem_cons_of_mem d hd2)) (step2 y d)

/-! Lemmas about indexing a well-shaped tensor. -/

lemma get?_isSome_of_lt {α : Type} {l : List α} {n : ℕ} (h : n < l.length) :
    ∃ a, l.get? n = some a := by
  cases hg : l.get? n with
  | none =>
    have := List.get?_eq_none.mp hg
    omega
  | some a => exact ⟨a, rfl⟩

lemma rate?_eq_some {t : Tensor} {nm nc : ℕ} (hs : ShapeOK t nm nc)
    {m c d : ℕ} (hm : m < nm) (hc : c < nc) (hd : d < nc) :
    rate? t m c d = some (rateD t m c d) := by
  obtain ⟨hlen, hrows⟩ := hs
  obtain ⟨mo, hmo⟩ := get?_isSome_of_lt (l := t) (by rw [hlen]; exact hm)
  obtain ⟨hmolen, hrowlen⟩ := hrows mo (List.get?_mem hmo)
  obtain ⟨row, hrow⟩ := get?_isSome_of_lt (l := mo) (by rw [hmolen]; exact hc)
  obtain ⟨x, hx⟩ := get?_isSome_of_lt (l := row)
    (by rw [hrowlen row (List.get?_mem hrow)]; exact hd)
  unfold rateD rate?
  rw [hmo]
  simp only [Option.some_bind]
  rw [hrow]
  simp only [Option.some_bind]
  rw [hx]
  rfl

lemma rateD_nonneg {t : Tensor} (hn : NonnegTensor t) (m c d : ℕ) :
    0 ≤ rateD t m c d := by
  unfold rateD rate?
  cases hmo : t.get? m with
  | none => exact le_refl 0
  | some mo =>
    simp only [Option.some_bind]
    cases hrow : mo.get? c with
    | none => exact le_refl 0
    | some row =>
      simp only [Option.some_bind]
      cases hx : row.get? d with
      | none => exact le_refl 0
      | some x =>
        simp only [Option.getD_some]
        exact hn mo (List.get?_mem hmo) row (List.get?_mem hrow) x
          (List.get?_mem hx)

lemma dpAux_nonneg {t : Tensor} (hn : NonnegTensor t) (tgt nc : ℕ) :
    ∀ k p c, 0 ≤ dpAux tgt t nc k p c
  | 0, p, c => rateD_nonneg hn p c tgt
  | k + 1, p, c => by
    apply listMax_nonneg
    intro x hx
    obtain ⟨d, _, rfl⟩ := List.mem_map.mp hx
    exact mul_nonneg (rateD_nonneg hn p c d) (dpAux_nonneg hn tgt nc k (p + 1) d)

/-! Folding `max` against a scaled or listed family. -/

lemma foldl_max_fn_mul (v : ℚ) (hv : 0 ≤ v) (g : ℕ → ℚ) :
    ∀ (l : List ℕ) (a : ℚ),
      l.foldl (fun x d => max x (v * g d)) (v * a) =
        v * l.foldl (fun x d => max x (g d)) a
  | [], _ => rfl
  | d :: ds, a => by
    rw [List.foldl_cons, List.foldl_cons, ← mul_max_of_nonneg a (g d) hv]
    exact foldl_max_fn_mul v hv g ds (max a (g d))

lemma foldl_max_fn_eq_listMax (g : ℕ → ℚ) (l : List ℕ) (hne : l ≠ [])
    (hg : ∀ d ∈ l, 0 ≤ g d) :
    l.foldl (fun a d => max a (g d)) 0 = listMax (l.map g) := by
  rw [← foldl_max_zero_eq_listMax (l.map g)
    (by simpa using hne)
    (by
      intro x hx
      obtain ⟨d, hd, rfl⟩ := List.mem_map.mp hx
      exact hg d hd)]
  rw [List.foldl_map]

/-- The direct recursive search agrees with the bottom-up DP table: with k
periods remaining after month m, on a well-shaped non-negative tensor, the
code returns the starting value times the table entry. -/
lemma max_return_eq_dpAux (env : Env) (t : Tensor) (nm nc : ℕ)
    (hn : NonnegTensor t) (hs : ShapeOK t nm nc)
    (ht : env.toTradeCurrency < nc) :
    ∀ (k m c : ℕ) (v : ℚ), m + 1 + k = nm → c < nc → 0 ≤ v →
      max_return (k + 1) env t m c v nm nc =
        some (v * dpAux env.toTradeCurrency t nc k m c) := by
  intro k
  induction k with
  | zero =>
    intro m c v hmk hc hv
    rw [max_return_succ_last _ _ _ _ _ _ _ _ (by omega),
      rate?_eq_some hs (by omega) hc ht]
    simp [dpAux]
  | succ k ih =>
    intro m c v hmk hc hv
    have hm : m < nm := by omega
    rw [max_return_succ_loop _ _ _ _ _ _ _ _ (by omega)]
    rw [foldl_step_some _
      (fun d => v * (rateD t m c d *
        dpAux env.toTradeCurrency t nc k (m + 1) d))
      (List.range nc)
      (by
        intro d hd a
        have hdnc : d < nc := List.mem_range.mp hd
        simp only [Option.some_bind]
        rw [rate?_eq_some hs hm hc hdnc]
        simp only [Option.some_bind]
        rw [ih (m + 1) d (v * rateD t m c d) (by omega) hdnc
            (mul_nonneg hv (rateD_nonneg hn m c d))]
        simp [mul_assoc])
      0]
    have hfold := foldl_max_fn_mul v hv
      (fun d => rateD t m c d * dpAux env.toTradeCurrency t nc k (m + 1) d)
      (List.range nc) 0
    rw [mul_zero] at hfold
    rw [hfold]
    rw [foldl_max_fn_eq_listMax _ (List.range nc)
      (fun h => by
        have := List.range_eq_nil.mp h
        omega)
      (fun d _ => mul_nonneg (rateD_nonneg hn m c d)
        (dpAux_nonneg hn env.toTradeCurrency nc k (m + 1) d))]
    rfl

/-- Totality on well-shaped tensors: no sign condition on the value or on the
rates is needed for the search to produce a numeric result. -/
lemma max_return_total (env : Env) (t : Tensor) (nm nc : ℕ)
    (hs : ShapeOK t nm nc) (ht : env.toTradeCurrency < nc) :
    ∀ (k m c : ℕ) (v : ℚ), m + 1 + k = nm → c < nc →
      ∃ r, max_return (k + 1) env t m c v nm nc = some r := by
  intro k
  induction k with
  | zero =>
    intro m c v hmk hc
    rw [max_return_succ_last _ _ _ _ _ _ _ _ (by omega),
      rate?_eq_some hs (by omega) hc ht]
    exact ⟨_, rfl⟩
  | succ k ih =>
    intro m c v hmk hc
    have hm : m < nm := by omega
    rw [max_return_succ_loop _ _ _ _ _ _ _ _ (by omega)]
    obtain ⟨r, hr, -⟩ := foldl_step_total
      (fun acc? to_c =>
        acc?.bind fun acc =>
          (rate? t m c to_c).bind fun trade_return =>
            (max_return (k + 1) env t (m + 1) to_c (v * trade_return) nm
                nc).map
              fun next_return => max acc next_return)
      (List.range nc)
      (by
        intro d hd a
        have hdnc : d < nc := List.mem_range.mp hd
        simp only [Option.some_bind]
        rw [rate?_eq_some hs hm hc hdnc]
        simp only [Option.some_bind]
        obtain ⟨r2, hr2⟩ := ih (m + 1) d (v * rateD t m c d) (by omega) hdnc
        rw [hr2]
        exact ⟨max a r2, rfl, le_max_left a r2⟩)
      0
    exact ⟨r, hr⟩

/-- At a strictly non-terminal starting month the loop accumulator starts at
0, so the result is clamped to be non-negative whatever the value and the
rates are. -/
lemma max_return_nonterminal_nonneg (env : Env) (t : Tensor) (nm nc : ℕ)
    (hs : ShapeOK t nm nc) (ht : env.toTradeCurrency < nc)
    (k m c : ℕ) (v : ℚ) (hmk : m + 2 + k = nm) (hc : c < nc) :
    ∃ r, max_return (k + 2) env t m c v nm nc = some r ∧ 0 ≤ r := by
  have hm : m < nm := by omega
  rw [max_return_succ_loop _ _ _ _ _ _ _ _ (by omega)]
  exact foldl_step_total _ (List.range nc)
    (by
      intro d hd a
      have hdnc : d < nc := List.mem_range.mp hd
      simp only [Option.some_bind]
      rw [rate?_eq_some hs hm hc hdnc]
      simp only [Option.some_bind]
      obtain ⟨r2, hr2⟩ := max_return_total env t nm nc hs ht k (m + 1) d
        (v * rateD t m c d) (by omega) hdnc
      rw [hr2]
      exact ⟨max a r2, rfl, le_max_left a r2⟩)
    0

/-- Fuel stability: any fuel strictly above the number k of remaining
periods gives the same result, so the recursion terminates with depth
exactly k from a start with k periods left. -/
lemma max_return_fuel_stable (env : Env) (t : Tensor) (nm nc : ℕ) :
    ∀ (k f1 f2 m c : ℕ) (v : ℚ), m + 1 + k = nm → k < f1 → k < f2 →
      max_return f1 env t m c v nm nc = max_return f2 env t m c v nm nc := by
  intro k
  induction k with
  | zero =>
    intro f1 f2 m c v hmk h1 h2
    obtain ⟨a, rfl⟩ : ∃ a, f1 = a + 1 := ⟨f1 - 1, by omega⟩
    obtain ⟨b, rfl⟩ : ∃ b, f2 = b + 1 := ⟨f2 - 1, by omega⟩
    rw [max_return_succ_last _ _ _ _ _ _ _ _ (by omega),
      max_return_succ_last _ _ _ _ _ _ _ _ (by omega)]
  | succ k ih =>
    intro f1 f2 m c v hmk h1 h2
    obtain ⟨a, rfl⟩ : ∃ a, f1 = a + 1 := ⟨f1 - 1, by omega⟩
    obtain ⟨b, rfl⟩ : ∃ b, f2 = b + 1 := ⟨f2 - 1, by omega⟩
    rw [max_return_succ_loop _ _ _ _ _ _ _ _ (by omega),
      max_return_succ_loop _ _ _ _ _ _ _ _ (by omega)]
    apply foldl_step_congr
    intro d hd y
    cases y with
    | none => rfl
    | some acc =>
      simp only [Option.some_bind]
      have harm : (fun trade_return => (max_return a env t (m + 1) d
            (v * trade_return) nm nc).map fun next_return =>
              max acc next_return) =
          (fun trade_return => (max_return b env t (m + 1) d
            (v * trade_return) nm nc).map fun next_return =>
              max acc next_return) := by
        funext trade_return
        rw [ih a b (m + 1) d (v * trade_return) (by omega) (by omega)
          (by omega)]
      rw [harm]

/-- Multiplicative homogeneity of the search at every fuel: scaling the
portfolio value by a non-negative factor scales the result by that factor. -/
lemma max_return_smul (env : Env) (t : Tensor) (nm nc : ℕ) (kf : ℚ)
    (hk : 0 ≤ kf) :
    ∀ (fuel m c : ℕ) (v : ℚ),
      max_return fuel env t m c (kf * v) nm nc =
        (max_return fuel env t m c v nm nc).map fun r => kf * r := by
  intro fuel
  induction fuel with
  | zero => intro m c v; rfl
  | succ fuel ih =>
    intro m c v
    by_cases hlast : m + 1 = nm
    · rw [max_return_succ_last _ _ _ _ _ _ _ _ hlast,
        max_return_succ_last _ _ _ _ _ _ _ _ hlast]
      cases rate? t m c env.toTradeCurrency with
      | none => rfl
      | some r => simp [mul_assoc]
    · rw [max_return_succ_loop _ _ _ _ _ _ _ _ hlast,
        max_return_succ_loop _ _ _ _ _ _ _ _ hlast]
      have hmain := foldl_step_map
        (fun acc? to_c =>
          acc?.bind fun acc =>
            (rate? t m c to_c).bind fun trade_return =>
              (max_return fuel env t (m + 1) to_c ((kf * v) * trade_return)
                  nm nc).map
                fun next_return => max acc next_return)
        (fun acc? to_c =>
          acc?.bind fun acc =>
            (rate? t m c to_c).bind fun trade_return =>
              (max_return fuel env t (m + 1) to_c (v * trade_return) nm
                  nc).map
                fun next_return => max acc next_return)
        (fun r => kf * r)
        (List.range nc)
        (by
          intro d hd y
          cases y with
          | none => rfl
          | some acc =>
            simp only [Option.map_some', Option.some_bind]
            cases hr : rate? t m c d with
            | none => rfl
            | some tr =>
              simp only [Option.some_bind]
              rw [mul_assoc, ih (m + 1) d (v * tr)]
              cases max_return fuel env t (m + 1) d (v * tr) nm nc with
              | none => rfl
              | some nr =>
                simp only [Option.map_some']
                rw [mul_max_of_nonneg acc nr hk])
        (some 0)
      simpa using hmain

/-- The optimizer reads the environment only through TO_TRADE_CURRENCY: two
environments that agree on it give identical results for all arguments. -/
lemma max_return_env_congr (env1 env2 : Env)
    (h : env1.toTradeCurrency = env2.toTradeCurrency) (t : Tensor) :
    ∀ (fuel m c : ℕ) (v : ℚ) (nm nc : ℕ),
      max_return fuel env1 t m c v nm nc =
        max_return fuel env2 t m c v nm nc := by
  intro fuel
  induction fuel with
  | zero => intro m c v nm nc; rfl
  | succ fuel ih =>
    intro m c v nm nc
    by_cases hlast : m + 1 = nm
    · rw [max_return_succ_last _ _ _ _ _ _ _ _ hlast,
        max_return_succ_last _ _ _ _ _ _ _ _ hlast, h]
    · rw [max_return_succ_loop _ _ _ _ _ _ _ _ hlast,
        max_return_succ_loop _ _ _ _ _ _ _ _ hlast]
      apply foldl_step_congr
      intro d hd y
      cases y with
      | none => rfl
      | some acc =>
        simp only [Option.some_bind]
        have harm : (fun trade_return => (max_return fuel env1 t (m + 1) d
              (v * trade_return) nm nc).map fun next_return =>
                max acc next_return) =
            (fun trade_return => (max_return fuel env2 t (m + 1) d
              (v * trade_return) nm nc).map fun next_return =>
                max acc next_return) := by
          funext trade_return
          rw [ih (m + 1) d (v * trade_return) nm nc]
        rw [harm]

/-- The DP table value is attained by a concrete legal path. -/
lemma dpAux_attained (tgt : ℕ) (t : Tensor) (nc : ℕ) (hnc : 0 < nc) :
    ∀ (k p c : ℕ), ∃ ds : List ℕ, ds.length = k ∧ (∀ d ∈ ds, d < nc) ∧
      dpAux tgt t nc k p c = pathFactor t tgt p c ds := by
  intro k
  induction k with
  | zero =>
    intro p c
    exact ⟨[], rfl, by intro d hd; exact absurd hd (List.not_mem_nil d), rfl⟩
  | succ k ih =>
    intro p c
    have hne : (List.range nc).map
        (fun d => rateD t p c d * dpAux tgt t nc k (p + 1) d) ≠ [] := by
      intro hcon
      rw [List.map_eq_nil_iff] at hcon
      rw [List.range_eq_nil] at hcon
      omega
    obtain ⟨d, hd, heq⟩ := List.mem_map.mp (listMax_mem _ hne)
    obtain ⟨ds, hlen, hbound, hpf⟩ := ih (p + 1) d
    refine ⟨d :: ds, by simp [hlen], ?_, ?_⟩
    · intro d2 hd2
      rcases List.mem_cons.mp hd2 with h | h
      · subst h; exact List.mem_range.mp hd
      · exact hbound d2 h
    · have hstep : dpAux tgt t nc (k + 1) p c =
          rateD t p c d * dpAux tgt t nc k (p + 1) d := by
        simp only [dpAux]
        exact heq.symm
      rw [hstep, hpf]
      rfl

/-- Every legal path factor is bounded by the DP table value. -/
lemma dpAux_bound (tgt : ℕ) (t : Tensor) (nc : ℕ) (hn : NonnegTensor t) :
    ∀ (k p c : ℕ) (ds : List ℕ), ds.length = k → (∀ d ∈ ds, d < nc) →
      pathFactor t tgt p c ds ≤ dpAux tgt t nc k p c := by
  intro k
  induction k with
  | zero =>
    intro p c ds hlen _
    rw [List.length_eq_zero.mp hlen]
    exact le_refl _
  | succ k ih =>
    intro p c ds hlen hbound
    cases ds with
    | nil => simp at hlen
    | cons d ds2 =>
      have hd : d < nc := hbound d (List.mem_cons_self d ds2)
      have h2 : rateD t p c d * pathFactor t tgt (p + 1) d ds2 ≤
          rateD t p c d * dpAux tgt t nc k (p + 1) d :=
        mul_le_mul_of_nonneg_left
          (ih (p + 1) d ds2 (by simpa using hlen)
            (fun d2 hd2 => hbound d2 (List.mem_cons_of_mem d hd2)))
          (rateD_nonneg hn p c d)
      refine le_trans h2 ?_
      exact le_listMax _ _
        (List.mem_map.mpr ⟨d, List.mem_range.mpr hd, rfl⟩)

/-- The DP table satisfies the terminal equation of the spec recurrence:
V[nm-1][c] = rate[nm-1][c][target]. -/
lemma dpValue_last (tgt : ℕ) (t : Tensor) (nm nc c : ℕ) (h : 0 < nm) :
    dpValue tgt t nm nc (nm - 1) c = rateD t (nm - 1) c tgt := by
  unfold dpValue
  rw [show nm - 1 - (nm - 1) = 0 from by omega]
  rfl

/-- The DP table satisfies the interior equation of the spec recurrence:
V[p][c] = max over d of rate[p][c][d] * V[p+1][d] for p < nm - 1. -/
lemma dpValue_step (tgt : ℕ) (t : Tensor) (nm nc p c : ℕ) (h : p + 1 < nm) :
    dpValue tgt t nm nc p c =
      listMax ((List.range nc).map fun d =>
        rateD t p c d * dpValue tgt t nm nc (p + 1) d) := by
  unfold dpValue
  rw [show nm - 1 - p = (nm - 1 - (p + 1)) + 1 from by omega]
  rfl

/-- C1: for every well-shaped tensor of non-negative rates, every valid
month and starting currency, every non-negative portfolio value and any
sufficient fuel, max_return returns the portfolio value times the maximum,
over all legal period-by-period destination-currency choices (one free
choice per period from month to num_months - 2, the last period being fixed
to the configured target currency), of the product of per-period rate
factors along the path. -/
theorem claim_C1_path_optimality (fuel : ℕ) (env : Env) (t : Tensor)
    (nm nc m c : ℕ) (v : ℚ) (hn : NonnegTensor t) (hs : ShapeOK t nm nc)
    (ht : env.toTradeCurrency < nc) (hm : m < nm) (hc : c < nc) (hv : 0 ≤ v)
    (hf : nm - m ≤ fuel) :
    ∃ r, max_return fuel env t m c v nm nc = some r ∧
      (∃ ds : List ℕ, ds.length = nm - 1 - m ∧ (∀ d ∈ ds, d < nc) ∧
        r = v * pathFactor t env.toTradeCurrency m c ds) ∧
      ∀ ds : List ℕ, ds.length = nm - 1 - m → (∀ d ∈ ds, d < nc) →
        v * pathFactor t env.toTradeCurrency m c ds ≤ r := by
  have hk : m + 1 + (nm - 1 - m) = nm := by omega
  rw [max_return_fuel_stable env t nm nc (nm - 1 - m) fuel
      ((nm - 1 - m) + 1) m c v hk (by omega) (by omega),
    max_return_eq_dpAux env t nm nc hn hs ht (nm - 1 - m) m c v hk hc hv]
  refine ⟨v * dpAux env.toTradeCurrency t nc (nm - 1 - m) m c, rfl, ?_, ?_⟩
  · obtain ⟨ds, hlen, hb, hpf⟩ := dpAux_attained env.toTradeCurrency t nc
      (by omega) (nm - 1 - m) m c
    exact ⟨ds, hlen, hb, by rw [hpf]⟩
  · intro ds hlen hb
    exact mul_le_mul_of_nonneg_left
      (dpAux_bound env.toTradeCurrency t nc hn (nm - 1 - m) m c ds hlen hb)
      hv

/-- Witness for C1 at a concrete one-period instance. -/
theorem claim_C1_path_optimality_witness :
    ∃ r, max_return 1 defaultEnv [[[2]]] 0 0 1 1 1 = some r ∧
      (∃ ds : List ℕ, ds.length = 1 - 1 - 0 ∧ (∀ d ∈ ds, d < 1) ∧
        r = 1 * pathFactor [[[2]]] defaultEnv.toTradeCurrency 0 0 ds) ∧
      ∀ ds : List ℕ, ds.length = 1 - 1 - 0 → (∀ d ∈ ds, d < 1) →
        1 * pathFactor [[[2]]] defaultEnv.toTradeCurrency 0 0 ds ≤ r :=
  claim_C1_path_optimality 1 defaultEnv [[[2]]] 1 1 0 0 1 (by decide)
    (by decide) (by decide) (by decide) (by decide) (by decide) (by decide)

/-- C2: at the last month the destination is not a free choice: the code
returns exactly the value times rate[month][currency][target] where target
is the configured TO_TRADE_CURRENCY, with no branching over destinations;
and in the concrete boundary instance with 1 period, 2 currencies,
target 0, rates [[1, 2], [1/2, 1]], starting currency 1 and value 1, the
result is 1/2 (the exact rational value of 0.5). -/
theorem claim_C2_terminal_rule :
    (∀ (fuel : ℕ) (env : Env) (t : Tensor) (nm nc m c : ℕ) (v : ℚ),
      ShapeOK t nm nc → env.toTradeCurrency < nc → c < nc → m + 1 = nm →
        max_return (fuel + 1) env t m c v nm nc =
          some (v * rateD t m c env.toTradeCurrency)) ∧
      max_return 1 defaultEnv [[[1, 2], [1/2, 1]]] 0 1 1 1 2 =
        some (1/2) := by
  constructor
  · intro fuel env t nm nc m c v hs ht hc hlast
    rw [max_return_succ_last _ _ _ _ _ _ _ _ hlast,
      rate?_eq_some hs (by omega) hc ht]
    rfl
  · norm_num [max_return, rate?, defaultEnv]

/-- Witness for the quantified part of C2. -/
theorem claim_C2_terminal_rule_witness :
    max_return 1 defaultEnv [[[2]]] 0 0 1 1 1 =
      some (1 * rateD [[[2]]] 0 0 defaultEnv.toTradeCurrency) :=
  claim_C2_terminal_rule.1 0 defaultEnv [[[2]]] 1 1 0 0 1 (by decide)
    (by decide) (by decide) rfl

/-- C3: the direct recursive search agrees exactly (in exact rational
arithmetic) with the bottom-up dynamic program of the spec,
V[nm-1][c] = rate[nm-1][c][target] and
V[p][c] = max over d of rate[p][c][d] * V[p+1][d], the answer being
value * V[start month][start currency]. -/
theorem claim_C3_dp_equivalence (fuel : ℕ) (env : Env) (t : Tensor)
    (nm nc m c : ℕ) (v : ℚ) (hn : NonnegTensor t) (hs : ShapeOK t nm nc)
    (ht : env.toTradeCurrency < nc) (hm : m < nm) (hc : c < nc) (hv : 0 ≤ v)
    (hf : nm - m ≤ fuel) :
    max_return fuel env t m c v nm nc =
      some (v * dpValue env.toTradeCurrency t nm nc m c) := by
  have hk : m + 1 + (nm - 1 - m) = nm := by omega
  rw [max_return_fuel_stable env t nm nc (nm - 1 - m) fuel
      ((nm - 1 - m) + 1) m c v hk (by omega) (by omega),
    max_return_eq_dpAux env t nm nc hn hs ht (nm - 1 - m) m c v hk hc hv]
  rfl

/-- Witness for C3 at a concrete one-period instance. -/
theorem claim_C3_dp_equivalence_witness :
    max_return 1 defaultEnv [[[2]]] 0 0 1 1 1 =
      some (1 * dpValue defaultEnv.toTradeCurrency [[[2]]] 1 1 0 0) :=
  claim_C3_dp_equivalence 1 defaultEnv [[[2]]] 1 1 0 0 1 (by decide)
    (by decide) (by decide) (by decide) (by decide) (by decide) (by decide)

/-- C4 is false as stated: max_return performs no precondition validation
at all.  Here the portfolio value -1 is negative, an invalid input by the
claim, yet the code returns the numeric result -2 instead of signalling an
InvalidRange error. -/
theorem claim_C4_counterexample :
    ((-1 : ℚ) < 0) ∧
      max_return 1 defaultEnv [[[2]]] 0 0 (-1) 1 1 = some (-2) := by
  constructor
  · norm_num
  · norm_num [max_return, rate?, defaultEnv]

/-- C4 amended: max_return contains no InvalidShape or InvalidRange check;
it returns a numeric result for every portfolio value (negative included)
whenever the indices it actually touches are in bounds, and an
out-of-bounds access surfaces only as a numpy IndexError (modelled none) at
the point of first access, not as a precondition failure before recursion. -/
theorem claim_C4_no_validation (fuel : ℕ) (env : Env) (t : Tensor)
    (nm nc m c : ℕ) (v : ℚ) (hs : ShapeOK t nm nc)
    (ht : env.toTradeCurrency < nc) (hm : m < nm) (hc : c < nc)
    (hf : nm - m ≤ fuel) :
    ∃ r, max_return fuel env t m c v nm nc = some r := by
  have hk : m + 1 + (nm - 1 - m) = nm := by omega
  rw [max_return_fuel_stable env t nm nc (nm - 1 - m) fuel
    ((nm - 1 - m) + 1) m c v hk (by omega) (by omega)]
  exact max_return_total env t nm nc hs ht (nm - 1 - m) m c v hk hc

/-- Witness for the amended C4, at the invalid (negative) value -1. -/
theorem claim_C4_no_validation_witness :
    ∃ r, max_return 1 defaultEnv [[[2]]] 0 0 (-1) 1 1 = some r :=
  claim_C4_no_validation 1 defaultEnv [[[2]]] 1 1 0 0 (-1) (by decide)
    (by decide) (by decide) (by decide) (by decide)

/-- C5 is false as stated: the result of max_return is not determined by
its six explicit arguments alone.  Two calls with identical month,
currency, value, tensor, num_months and num_currencies but different
ambient TO_TRADE_CURRENCY environment values return different results. -/
theorem claim_C5_counterexample :
    max_return 1 defaultEnv [[[1, 2], [1/2, 1]]] 0 0 1 1 2 ≠
      max_return 1 ⟨1, 0, 0, "./data/", "app.log"⟩
        [[[1, 2], [1/2, 1]]] 0 0 1 1 2 := by
  norm_num [max_return, rate?, defaultEnv]

/-- C5 amended: max_return is deterministic in its six arguments together
with the TO_TRADE_CURRENCY environment variable, which it reads in the
terminal month; it reads no other ambient configuration, so environments
agreeing on TO_TRADE_CURRENCY give identical results whatever their
FROM_CURRENCY, START_MONTH, DATA_FOLDER and LOGGER_FILE values. -/
theorem claim_C5_reads_only_target (fuel : ℕ) (env1 env2 : Env)
    (t : Tensor) (m c : ℕ) (v : ℚ) (nm nc : ℕ)
    (h : env1.toTradeCurrency = env2.toTradeCurrency) :
    max_return fuel env1 t m c v nm nc =
      max_return fuel env2 t m c v nm nc :=
  max_return_env_congr env1 env2 h t fuel m c v nm nc

/-- Witness for the amended C5: same target, all other variables changed. -/
theorem claim_C5_reads_only_target_witness :
    max_return 1 defaultEnv [[[2]]] 0 0 1 1 1 =
      max_return 1 ⟨0, 9, 9, "elsewhere", "other.log"⟩ [[[2]]] 0 0 1 1 1 :=
  claim_C5_reads_only_target 1 defaultEnv
    ⟨0, 9, 9, "elsewhere", "other.log"⟩ [[[2]]] 0 0 1 1 1 rfl

/-- C6: multiplicative homogeneity: on a valid tensor with valid starting
indices, non-negative value v and positive factor kf, the result at value
kf * v is exactly kf times the result at value v. -/
theorem claim_C6_homogeneity (fuel : ℕ) (env : Env) (t : Tensor)
    (nm nc m c : ℕ) (v kf : ℚ) (hn : NonnegTensor t) (hs : ShapeOK t nm nc)
    (ht : env.toTradeCurrency < nc) (hm : m < nm) (hc : c < nc) (hv : 0 ≤ v)
    (hk : 0 < kf) (hf : nm - m ≤ fuel) :
    ∃ r, max_return fuel env t m c v nm nc = some r ∧
      max_return fuel env t m c (kf * v) nm nc = some (kf * r) := by
  have hk2 : m + 1 + (nm - 1 - m) = nm := by omega
  have hstable := max_return_fuel_stable env t nm nc (nm - 1 - m) fuel
    ((nm - 1 - m) + 1) m c v hk2 (by omega) (by omega)
  obtain ⟨r, hr⟩ := max_return_total env t nm nc hs ht (nm - 1 - m) m c v
    hk2 hc
  refine ⟨r, by rw [hstable]; exact hr, ?_⟩
  rw [max_return_smul env t nm nc kf (le_of_lt hk) fuel m c v, hstable, hr]
  rfl

/-- Witness for C6 with factor 2. -/
theorem claim_C6_homogeneity_witness :
    ∃ r, max_return 1 defaultEnv [[[2]]] 0 0 1 1 1 = some r ∧
      max_return 1 defaultEnv [[[2]]] 0 0 (2 * 1) 1 1 = some (2 * r) :=
  claim_C6_homogeneity 1 defaultEnv [[[2]]] 1 1 0 0 1 2 (by decide)
    (by decide) (by decide) (by decide) (by decide) (by decide) (by decide)
    (by decide)

/-- C7: on a well-shaped tensor all of whose entries are non-negative, with
valid starting month and currency and non-negative portfolio value, the
result of max_return is non-negative. -/
theorem claim_C7_nonnegativity (fuel : ℕ) (env : Env) (t : Tensor)
    (nm nc m c : ℕ) (v : ℚ) (hn : NonnegTensor t) (hs : ShapeOK t nm nc)
    (ht : env.toTradeCurrency < nc) (hm : m < nm) (hc : c < nc) (hv : 0 ≤ v)
    (hf : nm - m ≤ fuel) :
    ∃ r, max_return fuel env t m c v nm nc = some r ∧ 0 ≤ r := by
  have hk : m + 1 + (nm - 1 - m) = nm := by omega
  rw [max_return_fuel_stable env t nm nc (nm - 1 - m) fuel
      ((nm - 1 - m) + 1) m c v hk (by omega) (by omega),
    max_return_eq_dpAux env t nm nc hn hs ht (nm - 1 - m) m c v hk hc hv]
  exact ⟨_, rfl, mul_nonneg hv
    (dpAux_nonneg hn env.toTradeCurrency nc (nm - 1 - m) m c)⟩

/-- Witness for C7. -/
theorem claim_C7_nonnegativity_witness :
    ∃ r, max_return 1 defaultEnv [[[2]]] 0 0 1 1 1 = some r ∧ 0 ≤ r :=
  claim_C7_nonnegativity 1 defaultEnv [[[2]]] 1 1 0 0 1 (by decide)
    (by decide) (by decide) (by decide) (by decide) (by decide) (by decide)

/-- C8: in the multi-period scenario with 2 periods, 2 currencies, target
currency 0, period-0 rates [[1, 2], [1, 1]], period-1 rates
[[1, 1], [3, 1]], starting currency 0 and value 1, the result is exactly 6
(convert 0 to 1 at rate 2, then 1 to 0 at rate 3). -/
theorem claim_C8_multi_period_scenario :
    max_return 2 defaultEnv [[[1, 2], [1, 1]], [[1, 1], [3, 1]]] 0 0 1 2 2 =
      some 6 := by
  norm_num [max_return, rate?, defaultEnv, List.range_succ]

/-- C9: implicit clamping at non-terminal months: for any starting month
strictly before the last, any portfolio value (negative included) and any
well-shaped tensor (negative entries included), the result exists and is
non-negative, because the branch accumulator starts at 0 and the result is
the maximum of 0 and the branch results. -/
theorem claim_C9_nonterminal_clamping (fuel : ℕ) (env : Env) (t : Tensor)
    (nm nc m c : ℕ) (v : ℚ) (hs : ShapeOK t nm nc)
    (ht : env.toTradeCurrency < nc) (hm : m < nm - 1) (hc : c < nc)
    (hf : nm - m ≤ fuel) :
    ∃ r, max_return fuel env t m c v nm nc = some r ∧ 0 ≤ r := by
  have hk : m + 2 + (nm - m - 2) = nm := by omega
  rw [max_return_fuel_stable env t nm nc (nm - m - 1) fuel
    ((nm - m - 2) + 2) m c v (by omega) (by omega) (by omega)]
  exact max_return_nonterminal_nonneg env t nm nc hs ht (nm - m - 2) m c v
    hk hc

/-- Witness for C9 with a negative starting value and a non-terminal
start. -/
theorem claim_C9_nonterminal_clamping_witness :
    ∃ r, max_return 2 defaultEnv [[[5]], [[7]]] 0 0 (-1) 2 1 = some r ∧
      0 ≤ r :=
  claim_C9_nonterminal_clamping 2 defaultEnv [[[5]], [[7]]] 2 1 0 0 (-1)
    (by decide) (by decide) (by decide) (by decide) (by decide)

/-- C10: termination: for every start with month < num_months, the
recursion is insensitive to any call-stack fuel of at least
num_months - month, i.e. the search terminates after exactly
num_months - 1 - month nested recursive calls (the fuel counts the call
levels, one more than the recursion depth); no base case guards calls with
month above num_months - 1, which the fuel hypothesis makes explicit. -/
theorem claim_C10_termination (fuel : ℕ) (env : Env) (t : Tensor)
    (nm nc m c : ℕ) (v : ℚ) (hm : m < nm) (hf : nm - m ≤ fuel) :
    max_return fuel env t m c v nm nc =
      max_return (nm - m) env t m c v nm nc :=
  max_return_fuel_stable env t nm nc (nm - m - 1) fuel (nm - m) m c v
    (by omega) (by omega) (by omega)

/-- Witness for C10 with surplus fuel. -/
theorem claim_C10_termination_witness :
    max_return 7 defaultEnv [[[2]]] 0 0 1 1 1 =
      max_return 1 defaultEnv [[[2]]] 0 0 1 1 1 :=
  claim_C10_termination 7 defaultEnv [[[2]]] 1 1 0 0 1 (by decide)
    (by decide)

end ReturnsCalc
